import Mathlib

/-!
# Verification of the pricing/simulation core of `optiontakeprofitui_pandas.py`

This file gives a shallow embedding, over the real numbers, of the two numerical
components of the repository: the analytic Black-Scholes pricer
(`black_scholes_call`, source lines 11-15) and the Monte Carlo barrier
simulator (`monte_carlo_option_hit`, source lines 20-37), together with proofs
of the specification claims about them.

Python floating-point arithmetic is modelled by exact real arithmetic.  The
runtime errors Python can raise while evaluating the arithmetic
(`ZeroDivisionError`, `ValueError` from a `math` domain error, `ValueError`
from a negative `numpy` array dimension) are modelled explicitly with an
`Except` result: the embedded functions return `Except.error e` exactly at the
inputs where the Python code raises, in source evaluation order.

The `numpy` random draws `Z = np.random.normal(size=(n_paths, n_steps))`
produced after `np.random.seed(42)` form a matrix that is a fixed,
deterministic function of the seed (which the source hardcodes to `42`).  The
embedding takes this matrix as an explicit parameter `Z : ℕ → ℕ → ℝ`; every
theorem below holds for an arbitrary draw matrix.
-/

namespace OptionsPricing

open Real MeasureTheory Set intervalIntegral Classical Topology

/-- The runtime errors the Python source can raise while evaluating the two
numerical components: `ZeroDivisionError` (float division by zero, or `T / 0`
with `n_steps = 0`), a `math` domain error (`ValueError` from `math.log` on a
non-positive argument or `math.sqrt` on a negative one), and `ValueError` from
`np.random.normal` on a negative dimension. -/
inductive PyError where
  | zeroDivision
  | domainError
  | valueError
deriving DecidableEq

/-- The Gauss error function `erf x = (2/√π) · ∫_0^x exp (-t²) dt`, the
mathematical function computed by Python's `math.erf`. -/
noncomputable def erf (x : ℝ) : ℝ :=
  2 / Real.sqrt π * ∫ t in (0:ℝ)..x, Real.exp (-t ^ 2)

/-- The inline helper `N` of `black_scholes_call` (source line 14):
`N = lambda x: 0.5 * (1 + math.erf(x / math.sqrt(2)))`. -/
noncomputable def N (x : ℝ) : ℝ := 0.5 * (1 + erf (x / Real.sqrt 2))

/-- The value computed by the return expression of `black_scholes_call`
(source lines 12-15) at inputs where no arithmetic error occurs:
`d1 = (log(S/K) + (r - q + 0.5 σ²) T) / (σ √T)`, `d2 = d1 - σ √T`,
price `= S e^{-qT} N(d1) - K e^{-rT} N(d2)`. -/
noncomputable def bs_price (S K T r sigma q : ℝ) : ℝ :=
  let d1 := (Real.log (S / K) + (r - q + 0.5 * sigma ^ 2) * T) / (sigma * Real.sqrt T)
  let d2 := d1 - sigma * Real.sqrt T
  S * Real.exp (-q * T) * N d1 - K * Real.exp (-r * T) * N d2

/-- Embedding of `black_scholes_call(S, K, T, r, sigma, q=0)` (source lines
11-15), with Python's arithmetic-error behaviour explicit, in evaluation
order of line 12: `S / K` raises `ZeroDivisionError` when `K = 0`;
`math.log (S / K)` raises a domain error when `S / K ≤ 0`; `math.sqrt T`
raises a domain error when `T < 0`; the division by `sigma * math.sqrt T`
raises `ZeroDivisionError` when that product is zero.  Otherwise the formula
value is returned.  The source performs no input validation of its own. -/
noncomputable def black_scholes_call (S K T r sigma q : ℝ) : Except PyError ℝ :=
  if K = 0 then .error .zeroDivision
  else if S / K ≤ 0 then .error .domainError
  else if T < 0 then .error .domainError
  else if sigma * Real.sqrt T = 0 then .error .zeroDivision
  else .ok (bs_price S K T r sigma q)

/-- The Black-Scholes formula exactly as displayed in the specification §4.1,
used as the reference for the refinement claim C1. -/
noncomputable def specFairValue (S0 K T r q sigma : ℝ) : ℝ :=
  let d1 := (Real.log (S0 / K) + (r - q + 0.5 * sigma ^ 2) * T) / (sigma * Real.sqrt T)
  let d2 := d1 - sigma * Real.sqrt T
  S0 * Real.exp (-q * T) * N d1 - K * Real.exp (-r * T) * N d2

/-- One simulated geometric-Brownian-motion path (source lines 24-27):
`S[p, 0] = S0` and, for `t ≥ 1`,
`S[p, t] = S[p, t-1] * exp ((r - q - 0.5 σ²) dt + σ √dt · Z[p, t])`.
`Z t` is the standard-normal draw consumed for step `t` of this path; the
draw at index `0` is generated by `np.random.normal` but never used. -/
noncomputable def mcPath (Z : ℕ → ℝ) (S0 r q sigma dt : ℝ) : ℕ → ℝ
  | 0 => S0
  | t + 1 => mcPath Z S0 r q sigma dt t *
      Real.exp ((r - q - 0.5 * sigma ^ 2) * dt + sigma * Real.sqrt dt * Z (t + 1))

/-- Path `p` registers a hit (source line 29, `np.any(S >= threshold, axis=1)`):
some step index `t < n_steps` has `S[p, t] ≥ threshold`.  Step `0`, the initial
value, is included in the check. -/
def hitsBy (S : ℕ → ℕ → ℝ) (threshold : ℝ) (ns p : ℕ) : Prop :=
  ∃ t < ns, threshold ≤ S p t

/-- The set of hitting paths among the `n_paths` simulated ones
(the true entries of `hit_mask`, source line 29). -/
noncomputable def hitSet (S : ℕ → ℕ → ℝ) (threshold : ℝ) (np ns : ℕ) : Finset ℕ :=
  (Finset.range np).filter (hitsBy S threshold ns)

/-- `hit_prob = hit_mask.mean()` (source line 30): the number of hitting paths
divided by the number of paths. -/
noncomputable def hitProb (S : ℕ → ℕ → ℝ) (threshold : ℝ) (np ns : ℕ) : ℝ :=
  (hitSet S threshold np ns).card / np

/-- `np.argmax(S >= threshold, axis=1)` for path `p` (source line 31): the
first step index at which the path is at or above the threshold, and `0` when
the path never is. -/
noncomputable def firstHitIdx (S : ℕ → ℕ → ℝ) (threshold : ℝ) (ns p : ℕ) : ℕ :=
  if h : ∃ t, t < ns ∧ threshold ≤ S p t then Nat.find h else 0

/-- `avg_hit_time` (source lines 32-33): `hit_times = hit_indices[hit_mask] * dt`,
then `hit_times.mean() if hit_times.size > 0 else None`. -/
noncomputable def avgHitTime (S : ℕ → ℕ → ℝ) (threshold : ℝ) (np ns : ℕ) (dt : ℝ) :
    Option ℝ :=
  if (hitSet S threshold np ns).card = 0 then none
  else some ((∑ p ∈ hitSet S threshold np ns, (firstHitIdx S threshold ns p : ℝ) * dt) /
    (hitSet S threshold np ns).card)

/-- `np.mean(payoff)` (source lines 35-36) where
`payoff = np.where(hit_mask, threshold - K, 0)`: the sum over all paths of the
per-path payoff, divided by the number of paths. -/
noncomputable def meanPayoff (S : ℕ → ℕ → ℝ) (threshold K : ℝ) (np ns : ℕ) : ℝ :=
  (∑ p ∈ Finset.range np, if hitsBy S threshold ns p then threshold - K else 0) / np

/-- `PV = np.mean(payoff) * math.exp(-r * T)` (source line 36). -/
noncomputable def expectedPV (S : ℕ → ℕ → ℝ) (threshold K : ℝ) (np ns : ℕ) (r T : ℝ) : ℝ :=
  meanPayoff S threshold K np ns * Real.exp (-r * T)

/-- Embedding of `monte_carlo_option_hit(S0, K, T, r, sigma, threshold, q=0,
n_paths=20000, n_steps=126)` (source lines 20-37).  `Z` is the matrix of
standard-normal draws produced by `np.random.normal` under the hardcoded
`np.random.seed(42)`.  The path counts are integers, as in Python: `dt = T /
n_steps` (line 21) raises `ZeroDivisionError` when `n_steps = 0`, and
`np.random.normal(size=(n_paths, n_steps))` (line 23) raises `ValueError` on a
negative dimension.  Otherwise the function returns the triple
`(hit_prob, avg_hit_time, PV)` of line 37; the source performs no input
validation of its own. -/
noncomputable def monte_carlo_option_hit (Z : ℕ → ℕ → ℝ) (S0 K T r sigma threshold q : ℝ)
    (n_paths n_steps : ℤ) : Except PyError (ℝ × Option ℝ × ℝ) :=
  if n_steps = 0 then .error .zeroDivision
  else if n_paths < 0 ∨ n_steps < 0 then .error .valueError
  else
    let np := n_paths.toNat
    let ns := n_steps.toNat
    let dt := T / (n_steps : ℝ)
    let S : ℕ → ℕ → ℝ := fun p => mcPath (Z p) S0 r q sigma dt
    .ok (hitProb S threshold np ns, avgHitTime S threshold np ns dt,
      expectedPV S threshold K np ns r T)

/-- The `hit_prob` component of a simulator run that returned normally
(first element of the triple of source line 37); `0` for a raised error. -/
def runHitProb (x : Except PyError (ℝ × Option ℝ × ℝ)) : ℝ :=
  match x with
  | .ok y => y.1
  | .error _ => 0

/-- The `avg_hit_time` component of a simulator run that returned normally
(second element of the triple of source line 37); `none` for a raised error. -/
def runAvgHitTime (x : Except PyError (ℝ × Option ℝ × ℝ)) : Option ℝ :=
  match x with
  | .ok y => y.2.1
  | .error _ => none

/-- The `PV` component of a simulator run that returned normally (third
element of the triple of source line 37); `0` for a raised error. -/
def runPV (x : Except PyError (ℝ × Option ℝ × ℝ)) : ℝ :=
  match x with
  | .ok y => y.2.2
  | .error _ => 0

/-- An all-zeros draw matrix, used to instantiate the theorems below at
concrete inputs. -/
def zeroDraws : ℕ → ℕ → ℝ := fun _ _ => 0

/-- The standard normal density `exp (-x²/2) / √(2π)`, the derivative of the
CDF helper `N`. -/
noncomputable def gaussPDF (x : ℝ) : ℝ := Real.exp (-x ^ 2 / 2) / Real.sqrt (2 * π)

/-- Auxiliary for the nonnegativity proof of the pricer: the undiscounted
Black kernel `e^m · N (m/s + s/2) - N (m/s - s/2)` in the log-moneyness
`m = ln (S/K) + (r - q) T` and total volatility `s = σ √T`; the price of
line 15 equals `K e^{-rT}` times this kernel. -/
noncomputable def blackCore (s m : ℝ) : ℝ :=
  Real.exp m * N (m / s + s / 2) - N (m / s - s / 2)

/-! ## Basic run lemmas -/

/-- At strictly positive `S`, `K`, `T`, `sigma` none of the arithmetic-error
conditions of `black_scholes_call` fires, and the formula value is returned. -/
theorem black_scholes_call_run (S K T r sigma q : ℝ)
    (hS : 0 < S) (hK : 0 < K) (hT : 0 < T) (hsig : 0 < sigma) :
    black_scholes_call S K T r sigma q = .ok (bs_price S K T r sigma q) := by
  have h1 : K ≠ 0 := ne_of_gt hK
  have h2 : ¬S / K ≤ 0 := not_le.mpr (div_pos hS hK)
  have h3 : ¬T < 0 := not_lt.mpr hT.le
  have h4 : ¬sigma * Real.sqrt T = 0 :=
    ne_of_gt (mul_pos hsig (Real.sqrt_pos.mpr hT))
  simp only [black_scholes_call, h1, h2, h3, h4, if_false, ite_false]

/-- With a positive step count and a nonnegative path count the simulator
raises no error and returns the triple of reduction statistics computed from
the path matrix. -/
theorem monte_carlo_run (Z : ℕ → ℕ → ℝ) (S0 K T r sigma threshold q : ℝ)
    {n_paths n_steps : ℤ} (hp : 0 ≤ n_paths) (hs : 1 ≤ n_steps) :
    monte_carlo_option_hit Z S0 K T r sigma threshold q n_paths n_steps =
      .ok (hitProb (fun p => mcPath (Z p) S0 r q sigma (T / (n_steps : ℝ))) threshold
             n_paths.toNat n_steps.toNat,
           avgHitTime (fun p => mcPath (Z p) S0 r q sigma (T / (n_steps : ℝ))) threshold
             n_paths.toNat n_steps.toNat (T / (n_steps : ℝ)),
           expectedPV (fun p => mcPath (Z p) S0 r q sigma (T / (n_steps : ℝ))) threshold K
             n_paths.toNat n_steps.toNat r T) := by
  have h0 : ¬n_steps = 0 := by omega
  have h1 : ¬(n_paths < 0 ∨ n_steps < 0) := by omega
  simp only [monte_carlo_option_hit, h0, h1, if_false, ite_false]

/-! ## C1: the analytic pricer computes the specification's formula -/

/-- C1: for every `ContractParameters` with `S0 > 0`, `K > 0`, `T > 0`,
`sigma > 0`, `black_scholes_call` returns exactly
`S0·e^{-qT}·N(d1) - K·e^{-rT}·N(d2)` with
`d1 = (ln(S0/K) + (r - q + 0.5 σ²) T)/(σ √T)`, `d2 = d1 - σ √T` and
`N(x) = 0.5 (1 + erf (x/√2))`, i.e. the spec's displayed formula
(`specFairValue`). -/
theorem bs_call_matches_spec_formula (S0 K T r q sigma : ℝ)
    (hS : 0 < S0) (hK : 0 < K) (hT : 0 < T) (hsig : 0 < sigma) :
    black_scholes_call S0 K T r sigma q = .ok (specFairValue S0 K T r q sigma) := by
  rw [black_scholes_call_run S0 K T r sigma q hS hK hT hsig]
  rfl

/-- Witness for C1 at `S0 = 100`, `K = 95`, `T = 1`, `r = 1/20`, `q = 0`,
`sigma = 1/2`. -/
theorem bs_call_matches_spec_formula_witness :
    (0:ℝ) < 100 ∧ (0:ℝ) < 95 ∧ (0:ℝ) < 1 ∧ (0:ℝ) < 1/2 ∧
      black_scholes_call 100 95 1 (1/20) (1/2) 0 =
        .ok (specFairValue 100 95 1 (1/20) 0 (1/2)) :=
  ⟨by norm_num, by norm_num, by norm_num, by norm_num,
    bs_call_matches_spec_formula 100 95 1 (1/20) 0 (1/2)
      (by norm_num) (by norm_num) (by norm_num) (by norm_num)⟩

/-! ## Reduction-stage lemmas -/

/-- The mean payoff collapses to `hit fraction × (threshold - K)`: every
hitting path contributes the same constant. -/
theorem meanPayoff_eq_hitProb_mul (S : ℕ → ℕ → ℝ) (threshold K : ℝ) (np ns : ℕ) :
    meanPayoff S threshold K np ns = hitProb S threshold np ns * (threshold - K) := by
  unfold meanPayoff hitProb hitSet
  rw [← Finset.sum_filter, Finset.sum_const, nsmul_eq_mul]
  ring

/-! ## C2: per-path payoff and discounted mean -/

/-- C2: for every simulator run with `n_paths ≥ 1` and `n_steps ≥ 1`, the run
returns normally, and its `expected_pv` equals the mean over all paths of the
per-path payoff — `threshold - K` for a path with some step value at or above
the threshold, `0` otherwise — multiplied by `exp (-r T)`. -/
theorem mc_expected_pv_is_discounted_mean_payoff (Z : ℕ → ℕ → ℝ)
    (S0 K T r sigma threshold q : ℝ) (n_paths n_steps : ℤ)
    (hp : 1 ≤ n_paths) (hs : 1 ≤ n_steps) :
    (monte_carlo_option_hit Z S0 K T r sigma threshold q n_paths n_steps).isOk = true ∧
    runPV (monte_carlo_option_hit Z S0 K T r sigma threshold q n_paths n_steps) =
      (∑ p ∈ Finset.range n_paths.toNat,
          if ∃ t < n_steps.toNat,
              threshold ≤ mcPath (Z p) S0 r q sigma (T / (n_steps : ℝ)) t
          then threshold - K else 0) /
        (n_paths.toNat : ℝ) * Real.exp (-r * T) := by
  rw [monte_carlo_run Z S0 K T r sigma threshold q (by omega) hs]
  refine ⟨rfl, ?_⟩
  show expectedPV (fun p => mcPath (Z p) S0 r q sigma (T / (n_steps : ℝ))) threshold K
      n_paths.toNat n_steps.toNat r T = _
  unfold expectedPV meanPayoff hitsBy
  congr 1
  congr 1
  exact Finset.sum_congr rfl fun p _ => by congr

/-- Witness for C2 at `S0 = K = T = threshold = 1`, `r = q = 0`, `sigma = 1`,
one path, one step, all-zero draws. -/
theorem mc_expected_pv_witness :
    (1:ℤ) ≤ 1 ∧
      (monte_carlo_option_hit zeroDraws 1 1 1 0 1 1 0 1 1).isOk = true ∧
      runPV (monte_carlo_option_hit zeroDraws 1 1 1 0 1 1 0 1 1) =
        (∑ p ∈ Finset.range (1:ℤ).toNat,
            if ∃ t < (1:ℤ).toNat,
                (1:ℝ) ≤ mcPath (zeroDraws p) 1 0 0 1 (1 / ((1:ℤ) : ℝ)) t
            then 1 - 1 else 0) /
          ((1:ℤ).toNat : ℝ) * Real.exp (-0 * 1) :=
  ⟨le_refl 1,
    mc_expected_pv_is_discounted_mean_payoff zeroDraws 1 1 1 0 1 1 0 1 1
      (le_refl 1) (le_refl 1)⟩

/-! ## C10: closed form of the discounted payoff -/

/-- C10: for every run with `n_paths ≥ 1` and `n_steps ≥ 1`, `expected_pv`
equals `hit_probability × (threshold - K) × exp (-r T)` exactly, and is
negative as soon as `threshold < K` and at least one path hits. -/
theorem mc_pv_closed_form (Z : ℕ → ℕ → ℝ) (S0 K T r sigma threshold q : ℝ)
    (n_paths n_steps : ℤ) (hp : 1 ≤ n_paths) (hs : 1 ≤ n_steps) :
    runPV (monte_carlo_option_hit Z S0 K T r sigma threshold q n_paths n_steps) =
      runHitProb (monte_carlo_option_hit Z S0 K T r sigma threshold q n_paths n_steps) *
        (threshold - K) * Real.exp (-r * T) ∧
    (threshold < K →
      (∃ p < n_paths.toNat, ∃ t < n_steps.toNat,
          threshold ≤ mcPath (Z p) S0 r q sigma (T / (n_steps : ℝ)) t) →
      runPV (monte_carlo_option_hit Z S0 K T r sigma threshold q n_paths n_steps) < 0) := by
  rw [monte_carlo_run Z S0 K T r sigma threshold q (by omega) hs]
  set S : ℕ → ℕ → ℝ := fun p => mcPath (Z p) S0 r q sigma (T / (n_steps : ℝ)) with hS
  have hpv : runPV (Except.ok (α := ℝ × Option ℝ × ℝ) (ε := PyError)
      (hitProb S threshold n_paths.toNat n_steps.toNat,
       avgHitTime S threshold n_paths.toNat n_steps.toNat (T / (n_steps : ℝ)),
       expectedPV S threshold K n_paths.toNat n_steps.toNat r T)) =
      expectedPV S threshold K n_paths.toNat n_steps.toNat r T := rfl
  rw [hpv]
  constructor
  · show expectedPV S threshold K n_paths.toNat n_steps.toNat r T =
      hitProb S threshold n_paths.toNat n_steps.toNat * (threshold - K) * Real.exp (-r * T)
    rw [expectedPV, meanPayoff_eq_hitProb_mul]
  · intro hKlt hhit
    obtain ⟨p, hplt, ht⟩ := hhit
    have hcard : 0 < (hitSet S threshold n_paths.toNat n_steps.toNat).card := by
      refine Finset.card_pos.mpr ⟨p, ?_⟩
      exact Finset.mem_filter.mpr ⟨Finset.mem_range.mpr hplt, ht⟩
    have hnp : (0:ℝ) < (n_paths.toNat : ℝ) := by
      have : 1 ≤ n_paths.toNat := by omega
      exact_mod_cast Nat.lt_of_lt_of_le Nat.zero_lt_one this
    have hprob : 0 < hitProb S threshold n_paths.toNat n_steps.toNat := by
      unfold hitProb
      exact div_pos (by exact_mod_cast hcard) hnp
    show expectedPV S threshold K n_paths.toNat n_steps.toNat r T < 0
    rw [expectedPV, meanPayoff_eq_hitProb_mul]
    exact mul_neg_of_neg_of_pos
      (mul_neg_of_pos_of_neg hprob (sub_neg.mpr hKlt)) (Real.exp_pos _)

/-- Witness for C10 at `threshold = 1/2 < K = 1`, `S0 = 1`, all-zero draws
(every path starts at or above the threshold, so a hit exists). -/
theorem mc_pv_closed_form_witness :
    (1:ℤ) ≤ 1 ∧ (1:ℝ)/2 < 1 ∧
      (∃ p < (1:ℤ).toNat, ∃ t < (1:ℤ).toNat,
          (1:ℝ)/2 ≤ mcPath (zeroDraws p) 1 0 0 1 (1 / ((1:ℤ) : ℝ)) t) ∧
      runPV (monte_carlo_option_hit zeroDraws 1 1 1 0 1 (1/2) 0 1 1) < 0 := by
  have h := mc_pv_closed_form zeroDraws 1 1 1 0 1 (1/2) 0 1 1 (le_refl 1) (le_refl 1)
  have hhit : ∃ p < (1:ℤ).toNat, ∃ t < (1:ℤ).toNat,
      (1:ℝ)/2 ≤ mcPath (zeroDraws p) 1 0 0 1 (1 / ((1:ℤ) : ℝ)) t := by
    refine ⟨0, by norm_num, 0, by norm_num, ?_⟩
    show (1:ℝ)/2 ≤ 1
    norm_num
  exact ⟨le_refl 1, by norm_num, hhit, h.2 (by norm_num) hhit⟩

/-! ## C4: hit probability is weakly decreasing in the threshold -/

/-- C4: holding the draws and every other argument fixed, raising the
threshold never raises the returned `hit_probability`. -/
theorem mc_hit_prob_antitone (Z : ℕ → ℕ → ℝ) (S0 K T r sigma q t1 t2 : ℝ)
    (n_paths n_steps : ℤ) (h12 : t1 ≤ t2)
    (hp : 0 ≤ n_paths) (hs : 1 ≤ n_steps) :
    runHitProb (monte_carlo_option_hit Z S0 K T r sigma t2 q n_paths n_steps) ≤
      runHitProb (monte_carlo_option_hit Z S0 K T r sigma t1 q n_paths n_steps) := by
  rw [monte_carlo_run Z S0 K T r sigma t1 q hp hs,
    monte_carlo_run Z S0 K T r sigma t2 q hp hs]
  set S : ℕ → ℕ → ℝ := fun p => mcPath (Z p) S0 r q sigma (T / (n_steps : ℝ)) with hSdef
  show hitProb S t2 n_paths.toNat n_steps.toNat ≤ hitProb S t1 n_paths.toNat n_steps.toNat
  have hsub : hitSet S t2 n_paths.toNat n_steps.toNat ⊆
      hitSet S t1 n_paths.toNat n_steps.toNat := by
    unfold hitSet
    refine Finset.monotone_filter_right _ ?_
    intro p hp2
    obtain ⟨t, htlt, hle⟩ := hp2
    exact ⟨t, htlt, le_trans h12 hle⟩
  have hcard := Finset.card_le_card hsub
  unfold hitProb
  exact div_le_div_of_nonneg_right (by exact_mod_cast hcard) (Nat.cast_nonneg _)

/-- Witness for C4 at thresholds `1 ≤ 2`, one path, one step. -/
theorem mc_hit_prob_antitone_witness :
    (1:ℝ) ≤ 2 ∧ (0:ℤ) ≤ 1 ∧ (1:ℤ) ≤ 1 ∧
      runHitProb (monte_carlo_option_hit zeroDraws 1 1 1 0 1 2 0 1 1) ≤
        runHitProb (monte_carlo_option_hit zeroDraws 1 1 1 0 1 1 0 1 1) :=
  ⟨by norm_num, by norm_num, le_refl 1,
    mc_hit_prob_antitone zeroDraws 1 1 1 0 1 0 1 2 1 1 (by norm_num)
      (by norm_num) (le_refl 1)⟩

/-! ## C5: the barrier check includes the initial value -/

/-- C5: for every valid input with `threshold ≤ S0` and `n_paths ≥ 1` the
simulator returns `hit_probability = 1`: the barrier check
`np.any(S >= threshold, axis=1)` includes the initial column `S[:, 0] = S0`,
so every path hits at step `0`. -/
theorem mc_hit_prob_one_of_low_threshold (Z : ℕ → ℕ → ℝ)
    (S0 K T r sigma threshold q : ℝ) (n_paths n_steps : ℤ)
    (hS : 0 < S0) (hK : 0 < K) (hT : 0 < T) (hsig : 0 < sigma)
    (hthr : threshold ≤ S0) (hp : 1 ≤ n_paths) (hs : 1 ≤ n_steps) :
    (monte_carlo_option_hit Z S0 K T r sigma threshold q n_paths n_steps).isOk = true ∧
    runHitProb (monte_carlo_option_hit Z S0 K T r sigma threshold q n_paths n_steps) = 1 := by
  rw [monte_carlo_run Z S0 K T r sigma threshold q (by omega) hs]
  refine ⟨rfl, ?_⟩
  set S : ℕ → ℕ → ℝ := fun p => mcPath (Z p) S0 r q sigma (T / (n_steps : ℝ)) with hSdef
  show hitProb S threshold n_paths.toNat n_steps.toNat = 1
  have hns : 0 < n_steps.toNat := by omega
  have hall : ∀ p ∈ Finset.range n_paths.toNat, hitsBy S threshold n_steps.toNat p := by
    intro p _
    exact ⟨0, hns, hthr⟩
  unfold hitProb hitSet
  rw [Finset.filter_true_of_mem hall, Finset.card_range]
  have hnp : ((n_paths.toNat : ℝ)) ≠ 0 := Nat.cast_ne_zero.mpr (by omega)
  exact div_self hnp

/-- Witness for C5 at `threshold = 1/2 ≤ S0 = 1`. -/
theorem mc_hit_prob_one_witness :
    (1:ℝ)/2 ≤ 1 ∧ (1:ℤ) ≤ 1 ∧
      runHitProb (monte_carlo_option_hit zeroDraws 1 1 1 0 1 (1/2) 0 1 1) = 1 :=
  ⟨by norm_num, le_refl 1,
    (mc_hit_prob_one_of_low_threshold zeroDraws 1 1 1 0 1 (1/2) 0 1 1
      (by norm_num) (by norm_num) (by norm_num) (by norm_num) (by norm_num)
      (le_refl 1) (le_refl 1)).2⟩

/-- `np.argmax` on a row with at least one `True` entry returns the least
index of a `True` entry: on a hitting path, `firstHitIdx` is the least step
index at which the path is at or above the threshold. -/
theorem firstHitIdx_eq_sInf (S : ℕ → ℕ → ℝ) (threshold : ℝ) (ns p : ℕ)
    (h : ∃ t < ns, threshold ≤ S p t) :
    firstHitIdx S threshold ns p = sInf {t | t < ns ∧ threshold ≤ S p t} := by
  have h' : ∃ t, t < ns ∧ threshold ≤ S p t := h
  have hne : Set.Nonempty {t | t < ns ∧ threshold ≤ S p t} := h'
  unfold firstHitIdx
  rw [dif_pos h']
  refine le_antisymm (Nat.find_min' h' (Nat.sInf_mem hne)) (Nat.sInf_le (Nat.find_spec h'))

/-- The hitting set written with its defining predicate spelled out. -/
theorem hitSet_eq_filter (S : ℕ → ℕ → ℝ) (threshold : ℝ) (np ns : ℕ) :
    hitSet S threshold np ns =
      (Finset.range np).filter (fun p => ∃ t < ns, threshold ≤ S p t) := by
  unfold hitSet
  exact Finset.filter_congr fun x _ => Iff.rfl

/-! ## C6: avg_hit_time is absent exactly when no path hits -/

/-- C6: for every simulator run in which no path ever reaches or exceeds the
threshold, the returned `avg_hit_time` is `none` (absent), not zero; and when
at least one path hits, it is the average over hitting paths only of
(least step index with value ≥ threshold) × dt, where `dt = T / n_steps`. -/
theorem mc_avg_hit_time_cases (Z : ℕ → ℕ → ℝ) (S0 K T r sigma threshold q : ℝ)
    (n_paths n_steps : ℤ) (hp : 0 ≤ n_paths) (hs : 1 ≤ n_steps) :
    ((∀ p < n_paths.toNat, ∀ t < n_steps.toNat,
        mcPath (Z p) S0 r q sigma (T / (n_steps : ℝ)) t < threshold) →
      runAvgHitTime (monte_carlo_option_hit Z S0 K T r sigma threshold q n_paths n_steps) =
        none) ∧
    ((∃ p < n_paths.toNat, ∃ t < n_steps.toNat,
        threshold ≤ mcPath (Z p) S0 r q sigma (T / (n_steps : ℝ)) t) →
      runAvgHitTime (monte_carlo_option_hit Z S0 K T r sigma threshold q n_paths n_steps) =
        some ((∑ p ∈ (Finset.range n_paths.toNat).filter
                  (fun p => ∃ t < n_steps.toNat,
                    threshold ≤ mcPath (Z p) S0 r q sigma (T / (n_steps : ℝ)) t),
                ((sInf {t | t < n_steps.toNat ∧
                    threshold ≤ mcPath (Z p) S0 r q sigma (T / (n_steps : ℝ)) t} : ℕ) : ℝ) *
                  (T / (n_steps : ℝ))) /
              (((Finset.range n_paths.toNat).filter
                  (fun p => ∃ t < n_steps.toNat,
                    threshold ≤ mcPath (Z p) S0 r q sigma (T / (n_steps : ℝ)) t)).card : ℝ))) := by
  rw [monte_carlo_run Z S0 K T r sigma threshold q hp hs]
  constructor
  · intro h
    show avgHitTime (fun p => mcPath (Z p) S0 r q sigma (T / (n_steps : ℝ))) threshold
      n_paths.toNat n_steps.toNat (T / (n_steps : ℝ)) = none
    have hempty : hitSet (fun p => mcPath (Z p) S0 r q sigma (T / (n_steps : ℝ))) threshold
        n_paths.toNat n_steps.toNat = ∅ := by
      unfold hitSet
      refine Finset.filter_eq_empty_iff.mpr ?_
      intro p hmem hhit
      obtain ⟨t, htlt, hle⟩ := hhit
      exact absurd hle (not_le.mpr (h p (Finset.mem_range.mp hmem) t htlt))
    unfold avgHitTime
    rw [hempty]
    simp
  · intro h
    obtain ⟨p0, hp0, t0, ht0, hle0⟩ := h
    show avgHitTime (fun p => mcPath (Z p) S0 r q sigma (T / (n_steps : ℝ))) threshold
      n_paths.toNat n_steps.toNat (T / (n_steps : ℝ)) = some _
    have hmem : p0 ∈ hitSet (fun p => mcPath (Z p) S0 r q sigma (T / (n_steps : ℝ))) threshold
        n_paths.toNat n_steps.toNat := by
      unfold hitSet
      exact Finset.mem_filter.mpr ⟨Finset.mem_range.mpr hp0, ⟨t0, ht0, hle0⟩⟩
    have hcard : (hitSet (fun p => mcPath (Z p) S0 r q sigma (T / (n_steps : ℝ))) threshold
        n_paths.toNat n_steps.toNat).card ≠ 0 :=
      Finset.card_ne_zero_of_mem hmem
    unfold avgHitTime
    rw [if_neg hcard]
    congr 1
    rw [hitSet_eq_filter]
    congr 1
    refine Finset.sum_congr rfl ?_
    intro p hpmem
    have hhit : ∃ t < n_steps.toNat,
        threshold ≤ mcPath (Z p) S0 r q sigma (T / (n_steps : ℝ)) t :=
      (Finset.mem_filter.mp hpmem).2
    rw [firstHitIdx_eq_sInf _ threshold n_steps.toNat p hhit]

/-- Witness for C6: with one path, one step, `S0 = 1` and threshold `2`, no
path hits and the returned `avg_hit_time` is `none`. -/
theorem mc_avg_hit_time_witness :
    (0:ℤ) ≤ 1 ∧ (1:ℤ) ≤ 1 ∧
      runAvgHitTime (monte_carlo_option_hit zeroDraws 1 1 1 0 1 2 0 1 1) = none := by
  refine ⟨by norm_num, le_refl 1, ?_⟩
  refine (mc_avg_hit_time_cases zeroDraws 1 1 1 0 1 2 0 1 1 (by norm_num) (le_refl 1)).1 ?_
  intro p _ t ht
  have ht0 : t = 0 := by omega
  subst ht0
  show mcPath (zeroDraws p) 1 0 0 1 (1 / ((1:ℤ) : ℝ)) 0 < 2
  norm_num [mcPath]

/-! ## C3: there is no InvalidParameter validation in the code -/

/-- C3 counterexample: at `S0 = K = 100`, `T = 1`, `r = q = 0`, `sigma = 0`,
`threshold = 50`, one path and one step — an input on which the claim says
both components must fail with `InvalidParameter` before any computation —
the Monte Carlo simulator raises nothing and returns a result. -/
theorem mc_sigma_zero_returns_result :
    (monte_carlo_option_hit zeroDraws 100 100 1 0 0 50 0 1 1).isOk = true := by
  rw [monte_carlo_run zeroDraws 100 100 1 0 0 50 0 (by norm_num) (le_refl 1)]
  rfl

/-- C3 (amended): when `sigma = 0` or `T = 0` (with `S0, K > 0`, `T ≥ 0`),
`black_scholes_call` fails mid-computation with the `ZeroDivisionError` from
the division by `sigma * sqrt T` in line 12 — there is no typed
`InvalidParameter` check before computation — while `monte_carlo_option_hit`
performs no validation at all and returns a result. -/
theorem invalid_input_behavior (S K T r sigma threshold q : ℝ) (Z : ℕ → ℕ → ℝ)
    (n_paths n_steps : ℤ) (hS : 0 < S) (hK : 0 < K) (hT : 0 ≤ T)
    (hcase : sigma = 0 ∨ T = 0) (hp : 0 ≤ n_paths) (hs : 1 ≤ n_steps) :
    black_scholes_call S K T r sigma q = .error .zeroDivision ∧
    (monte_carlo_option_hit Z S K T r sigma threshold q n_paths n_steps).isOk = true := by
  constructor
  · have h1 : ¬K = 0 := ne_of_gt hK
    have h2 : ¬S / K ≤ 0 := not_le.mpr (div_pos hS hK)
    have h3 : ¬T < 0 := not_lt.mpr hT
    have h4 : sigma * Real.sqrt T = 0 := by
      rcases hcase with h | h
      · rw [h, zero_mul]
      · rw [h, Real.sqrt_zero, mul_zero]
    unfold black_scholes_call
    rw [if_neg h1, if_neg h2, if_neg h3, if_pos h4]
  · rw [monte_carlo_run Z S K T r sigma threshold q hp hs]
    rfl

/-- Witness for the amended C3 at `S = K = T = 1`, `sigma = 0`. -/
theorem invalid_input_behavior_witness :
    (0:ℝ) < 1 ∧ ((0:ℝ) = 0 ∨ (1:ℝ) = 0) ∧
      black_scholes_call 1 1 1 0 0 0 = .error .zeroDivision ∧
      (monte_carlo_option_hit zeroDraws 1 1 1 0 0 1 0 1 1).isOk = true := by
  have h := invalid_input_behavior 1 1 1 0 0 1 0 zeroDraws 1 1 one_pos one_pos
    zero_le_one (Or.inl rfl) (by norm_num) (le_refl 1)
  exact ⟨one_pos, Or.inl rfl, h.1, h.2⟩

/-! ## C8: failure behaviour for non-positive path and step counts -/

/-- C8 counterexample: with `n_paths = 0` and `n_steps = 126` the simulator
returns a result instead of failing. -/
theorem mc_zero_paths_returns_result :
    (monte_carlo_option_hit zeroDraws 100 105 1 0 (3/10) 120 0 0 126).isOk = true := by
  rw [monte_carlo_run zeroDraws 100 105 1 0 (3/10) 120 0 (le_refl 0) (by norm_num)]
  rfl

/-- C8 (amended): the simulator fails exactly when `n_paths < 0` or
`n_steps ≤ 0`: a `ZeroDivisionError` from `dt = T / n_steps` when
`n_steps = 0` and a `ValueError` from the negative `np.random.normal`
dimension otherwise.  In particular, for `n_paths = 0` with `n_steps ≥ 1` it
returns a result rather than failing. -/
theorem mc_failure_characterization (Z : ℕ → ℕ → ℝ) (S0 K T r sigma threshold q : ℝ)
    (n_paths n_steps : ℤ) :
    (monte_carlo_option_hit Z S0 K T r sigma threshold q n_paths n_steps).isOk = true ↔
      (0 ≤ n_paths ∧ 1 ≤ n_steps) := by
  constructor
  · intro h
    by_contra hc
    by_cases h0 : n_steps = 0
    · unfold monte_carlo_option_hit at h
      rw [if_pos h0] at h
      simp [Except.isOk, Except.toBool] at h
    · have h1 : n_paths < 0 ∨ n_steps < 0 := by omega
      unfold monte_carlo_option_hit at h
      rw [if_neg h0, if_pos h1] at h
      simp [Except.isOk, Except.toBool] at h
  · rintro ⟨hp, hs⟩
    rw [monte_carlo_run Z S0 K T r sigma threshold q hp hs]
    rfl

/-! ## C7: determinism -/

/-- A simulated path depends only on the draws it consumes: draws at indices
up to the step being computed. -/
theorem mcPath_congr (Z Z' : ℕ → ℝ) (S0 r q sigma dt : ℝ) (n : ℕ)
    (h : ∀ t ≤ n, Z t = Z' t) :
    mcPath Z S0 r q sigma dt n = mcPath Z' S0 r q sigma dt n := by
  induction n with
  | zero => rfl
  | succ k ih =>
    have hk := ih fun t ht => h t (le_trans ht (Nat.le_succ k))
    simp only [mcPath]
    rw [hk, h (k + 1) (le_refl _)]

/-- Hitting paths lie among the simulated path indices. -/
theorem hitSet_subset_range (S : ℕ → ℕ → ℝ) (threshold : ℝ) (np ns : ℕ) :
    hitSet S threshold np ns ⊆ Finset.range np := by
  unfold hitSet
  exact Finset.filter_subset _ _

/-- The three reduction statistics depend on the path matrix only through the
entries `S p t` with `p < n_paths` and `t < n_steps`. -/
theorem mc_stats_congr (S S' : ℕ → ℕ → ℝ) (threshold K r T dt : ℝ) (np ns : ℕ)
    (h : ∀ p < np, ∀ t < ns, S p t = S' p t) :
    hitProb S threshold np ns = hitProb S' threshold np ns ∧
    avgHitTime S threshold np ns dt = avgHitTime S' threshold np ns dt ∧
    expectedPV S threshold K np ns r T = expectedPV S' threshold K np ns r T := by
  have hiff : ∀ p < np, (hitsBy S threshold ns p ↔ hitsBy S' threshold ns p) := by
    intro p hp
    unfold hitsBy
    constructor
    · rintro ⟨t, ht, hle⟩
      exact ⟨t, ht, by rw [← h p hp t ht]; exact hle⟩
    · rintro ⟨t, ht, hle⟩
      exact ⟨t, ht, by rw [h p hp t ht]; exact hle⟩
  have hset : hitSet S threshold np ns = hitSet S' threshold np ns := by
    unfold hitSet
    exact Finset.filter_congr fun p hp => hiff p (Finset.mem_range.mp hp)
  have hidx : ∀ p < np, firstHitIdx S threshold ns p = firstHitIdx S' threshold ns p := by
    intro p hp
    unfold firstHitIdx
    by_cases hex : ∃ t, t < ns ∧ threshold ≤ S p t
    · have hex' : ∃ t, t < ns ∧ threshold ≤ S' p t := by
        obtain ⟨t, ht, hle⟩ := hex
        exact ⟨t, ht, by rw [← h p hp t ht]; exact hle⟩
      rw [dif_pos hex, dif_pos hex']
      refine le_antisymm ?_ ?_
      · refine Nat.find_min' hex ?_
        obtain ⟨hlt, hle⟩ := Nat.find_spec hex'
        exact ⟨hlt, by rw [h p hp _ hlt]; exact hle⟩
      · refine Nat.find_min' hex' ?_
        obtain ⟨hlt, hle⟩ := Nat.find_spec hex
        exact ⟨hlt, by rw [← h p hp _ hlt]; exact hle⟩
    · have hex' : ¬∃ t, t < ns ∧ threshold ≤ S' p t := by
        intro hcon
        obtain ⟨t, ht, hle⟩ := hcon
        exact hex ⟨t, ht, by rw [h p hp t ht]; exact hle⟩
      rw [dif_neg hex, dif_neg hex']
  refine ⟨?_, ?_, ?_⟩
  · unfold hitProb
    rw [hset]
  · unfold avgHitTime
    rw [hset]
    by_cases hc : (hitSet S' threshold np ns).card = 0
    · rw [if_pos hc, if_pos hc]
    · rw [if_neg hc, if_neg hc]
      congr 2
      refine Finset.sum_congr rfl ?_
      intro p hpmem
      have hplt : p < np :=
        Finset.mem_range.mp (hitSet_subset_range S' threshold np ns hpmem)
      rw [hidx p hplt]
  · unfold expectedPV meanPayoff
    congr 2
    refine Finset.sum_congr rfl ?_
    intro p hpmem
    have hplt : p < np := Finset.mem_range.mp hpmem
    rw [hiff p hplt]

/-- C7: the simulator is a deterministic function of its arguments.  Its
output depends on the draw matrix only through the entries actually consumed
(`p < n_paths`, `t < n_steps`), so two invocations with the same parameters
and the same seeded generator state (the source hardcodes `np.random.seed(42)`,
hence the same draw matrix) return identical `hit_probability`,
`avg_hit_time` and `expected_pv`. -/
theorem mc_deterministic (Z Z' : ℕ → ℕ → ℝ) (S0 K T r sigma threshold q : ℝ)
    (n_paths n_steps : ℤ)
    (hZ : ∀ p < n_paths.toNat, ∀ t < n_steps.toNat, Z p t = Z' p t) :
    monte_carlo_option_hit Z S0 K T r sigma threshold q n_paths n_steps =
      monte_carlo_option_hit Z' S0 K T r sigma threshold q n_paths n_steps := by
  by_cases h0 : n_steps = 0
  · unfold monte_carlo_option_hit
    rw [if_pos h0, if_pos h0]
  · by_cases h1 : n_paths < 0 ∨ n_steps < 0
    · unfold monte_carlo_option_hit
      rw [if_neg h0, if_pos h1, if_neg h0, if_pos h1]
    · have hp : 0 ≤ n_paths := by omega
      have hs : 1 ≤ n_steps := by omega
      rw [monte_carlo_run Z S0 K T r sigma threshold q hp hs,
        monte_carlo_run Z' S0 K T r sigma threshold q hp hs]
      have hmat : ∀ p < n_paths.toNat, ∀ t < n_steps.toNat,
          mcPath (Z p) S0 r q sigma (T / (n_steps : ℝ)) t =
            mcPath (Z' p) S0 r q sigma (T / (n_steps : ℝ)) t := by
        intro p hp' t ht
        refine mcPath_congr (Z p) (Z' p) S0 r q sigma _ t ?_
        intro u hu
        exact hZ p hp' u (lt_of_le_of_lt hu ht)
      obtain ⟨he1, he2, he3⟩ := mc_stats_congr _ _ threshold K r T (T / (n_steps : ℝ))
        n_paths.toNat n_steps.toNat hmat
      rw [he1, he2, he3]

/-- Witness for C7 with the all-zero draw matrix and one path, one step. -/
theorem mc_deterministic_witness :
    (∀ p < (1:ℤ).toNat, ∀ t < (1:ℤ).toNat, zeroDraws p t = zeroDraws p t) ∧
      monte_carlo_option_hit zeroDraws 1 1 1 0 1 1 0 1 1 =
        monte_carlo_option_hit zeroDraws 1 1 1 0 1 1 0 1 1 :=
  ⟨fun p _ t _ => rfl,
    mc_deterministic zeroDraws zeroDraws 1 1 1 0 1 1 0 1 1 fun p _ t _ => rfl⟩

/-! ## Gaussian integral facts for the error function -/

/-- The Gaussian integrand is integrable on the whole line. -/
theorem integrable_gauss : Integrable fun t : ℝ => Real.exp (-t ^ 2) := by
  have h := integrable_exp_neg_mul_sq (b := 1) one_pos
  simpa using h

/-- Right half-line Gaussian integral. -/
theorem gauss_Ioi : ∫ t in Ioi (0:ℝ), Real.exp (-t ^ 2) = Real.sqrt π / 2 := by
  have h := integral_gaussian_Ioi 1
  simpa using h

/-- Left half-line Gaussian integral, by symmetry. -/
theorem gauss_Iic : ∫ t in Iic (0:ℝ), Real.exp (-t ^ 2) = Real.sqrt π / 2 := by
  have h := integral_comp_neg_Iic (0:ℝ) fun t => Real.exp (-t ^ 2)
  rw [neg_zero] at h
  calc ∫ t in Iic (0:ℝ), Real.exp (-t ^ 2)
      = ∫ t in Iic (0:ℝ), Real.exp (-(-t) ^ 2) := by simp only [neg_sq]
    _ = ∫ t in Ioi (0:ℝ), Real.exp (-t ^ 2) := h
    _ = Real.sqrt π / 2 := gauss_Ioi

/-- A rightward partial Gaussian integral is at most the half-line value. -/
theorem gauss_partial_le (x : ℝ) (hx : 0 ≤ x) :
    ∫ t in (0:ℝ)..x, Real.exp (-t ^ 2) ≤ Real.sqrt π / 2 := by
  rw [intervalIntegral.integral_of_le hx, ← gauss_Ioi]
  refine setIntegral_mono_set integrable_gauss.integrableOn
    (Filter.Eventually.of_forall fun t => (Real.exp_pos _).le)
    (HasSubset.Subset.eventuallyLE ?_)
  exact Set.Ioc_subset_Ioi_self

/-- A leftward partial Gaussian integral is at most the half-line value. -/
theorem gauss_partial_neg_le (x : ℝ) (hx : x ≤ 0) :
    ∫ t in x..(0:ℝ), Real.exp (-t ^ 2) ≤ Real.sqrt π / 2 := by
  rw [intervalIntegral.integral_of_le hx, ← gauss_Iic]
  refine setIntegral_mono_set integrable_gauss.integrableOn
    (Filter.Eventually.of_forall fun t => (Real.exp_pos _).le)
    (HasSubset.Subset.eventuallyLE ?_)
  exact Set.Ioc_subset_Iic_self

/-- The error function is bounded above by `1`. -/
theorem erf_le_one (x : ℝ) : erf x ≤ 1 := by
  unfold erf
  have hpi : (0:ℝ) < Real.sqrt π := Real.sqrt_pos.mpr pi_pos
  rcases le_or_lt 0 x with hx | hx
  · have h := gauss_partial_le x hx
    calc 2 / Real.sqrt π * ∫ t in (0:ℝ)..x, Real.exp (-t ^ 2)
        ≤ 2 / Real.sqrt π * (Real.sqrt π / 2) :=
          mul_le_mul_of_nonneg_left h (by positivity)
      _ = 1 := by field_simp
  · have h0 : ∫ t in (0:ℝ)..x, Real.exp (-t ^ 2) ≤ 0 := by
      rw [intervalIntegral.integral_symm x 0]
      rw [neg_nonpos]
      exact intervalIntegral.integral_nonneg hx.le fun u _ => (Real.exp_pos _).le
    calc 2 / Real.sqrt π * ∫ t in (0:ℝ)..x, Real.exp (-t ^ 2)
        ≤ 2 / Real.sqrt π * 0 := mul_le_mul_of_nonneg_left h0 (by positivity)
      _ = 0 := mul_zero _
      _ ≤ 1 := zero_le_one

/-- The error function is bounded below by `-1`. -/
theorem neg_one_le_erf (x : ℝ) : -1 ≤ erf x := by
  unfold erf
  have hpi : (0:ℝ) < Real.sqrt π := Real.sqrt_pos.mpr pi_pos
  rcases le_or_lt 0 x with hx | hx
  · have h0 : 0 ≤ ∫ t in (0:ℝ)..x, Real.exp (-t ^ 2) :=
      intervalIntegral.integral_nonneg hx fun u _ => (Real.exp_pos _).le
    have h1 : 0 ≤ 2 / Real.sqrt π * ∫ t in (0:ℝ)..x, Real.exp (-t ^ 2) :=
      mul_nonneg (by positivity) h0
    linarith
  · have h := gauss_partial_neg_le x hx.le
    have h3 : 2 / Real.sqrt π * ∫ t in x..(0:ℝ), Real.exp (-t ^ 2) ≤ 1 := by
      calc 2 / Real.sqrt π * ∫ t in x..(0:ℝ), Real.exp (-t ^ 2)
          ≤ 2 / Real.sqrt π * (Real.sqrt π / 2) :=
            mul_le_mul_of_nonneg_left h (by positivity)
        _ = 1 := by field_simp
    rw [intervalIntegral.integral_symm x 0, mul_neg]
    exact neg_le_neg h3

/-- The CDF helper takes values in `[0, 1]`: lower bound. -/
theorem N_nonneg (x : ℝ) : 0 ≤ N x := by
  unfold N
  nlinarith [neg_one_le_erf (x / Real.sqrt 2)]

/-- The CDF helper takes values in `[0, 1]`: upper bound. -/
theorem N_le_one (x : ℝ) : N x ≤ 1 := by
  unfold N
  nlinarith [erf_le_one (x / Real.sqrt 2)]

/-- Derivative of the error function. -/
theorem hasDerivAt_erf (x : ℝ) :
    HasDerivAt erf (2 / Real.sqrt π * Real.exp (-x ^ 2)) x := by
  have hcont : Continuous fun t : ℝ => Real.exp (-t ^ 2) :=
    Real.continuous_exp.comp (continuous_pow 2).neg
  have h1 : HasDerivAt (fun u : ℝ => ∫ t in (0:ℝ)..u, Real.exp (-t ^ 2))
      (Real.exp (-x ^ 2)) x :=
    intervalIntegral.integral_hasDerivAt_right
      integrable_gauss.intervalIntegrable
      hcont.stronglyMeasurable.stronglyMeasurableAtFilter
      hcont.continuousAt
  exact h1.const_mul (2 / Real.sqrt π)

/-- Derivative of the CDF helper: the standard normal density. -/
theorem hasDerivAt_N (x : ℝ) : HasDerivAt N (gaussPDF x) x := by
  have h2 : (0:ℝ) < Real.sqrt 2 := Real.sqrt_pos.mpr two_pos
  have hd : HasDerivAt (fun y : ℝ => y / Real.sqrt 2) (1 / Real.sqrt 2) x := by
    simpa using (hasDerivAt_id x).div_const (Real.sqrt 2)
  have h1 := (hasDerivAt_erf (x / Real.sqrt 2)).comp x hd
  have h3 := (h1.const_add (1:ℝ)).const_mul (0.5:ℝ)
  have heq : (0.5:ℝ) * (2 / Real.sqrt π * Real.exp (-(x / Real.sqrt 2) ^ 2) *
      (1 / Real.sqrt 2)) = gaussPDF x := by
    unfold gaussPDF
    have hsq : (x / Real.sqrt 2) ^ 2 = x ^ 2 / 2 := by
      rw [div_pow, Real.sq_sqrt (by norm_num : (0:ℝ) ≤ 2)]
    rw [hsq, Real.sqrt_mul (by norm_num : (0:ℝ) ≤ 2), neg_div]
    have hpi : Real.sqrt π ≠ 0 := ne_of_gt (Real.sqrt_pos.mpr pi_pos)
    have h2ne : Real.sqrt 2 ≠ 0 := ne_of_gt h2
    field_simp
    ring
  rw [heq] at h3
  exact h3

/-- The error function tends to `-1` at `-∞`. -/
theorem tendsto_erf_atBot : Filter.Tendsto erf Filter.atBot (𝓝 (-1)) := by
  have h1 : Filter.Tendsto (fun x : ℝ => ∫ t in x..(0:ℝ), Real.exp (-t ^ 2))
      Filter.atBot (𝓝 (Real.sqrt π / 2)) := by
    have h := intervalIntegral_tendsto_integral_Iic (0:ℝ)
      integrable_gauss.integrableOn Filter.tendsto_id
    rwa [gauss_Iic] at h
  have h3 := h1.neg.const_mul (2 / Real.sqrt π)
  have h4 : ∀ x : ℝ,
      2 / Real.sqrt π * -(∫ t in x..(0:ℝ), Real.exp (-t ^ 2)) = erf x := by
    intro x
    unfold erf
    rw [intervalIntegral.integral_symm x 0]
  have h2 := h3.congr h4
  have h5 : 2 / Real.sqrt π * -(Real.sqrt π / 2) = -1 := by
    have hpi : Real.sqrt π ≠ 0 := ne_of_gt (Real.sqrt_pos.mpr pi_pos)
    field_simp
    ring
  rwa [h5] at h2

/-- The CDF helper tends to `0` at `-∞`. -/
theorem tendsto_N_atBot : Filter.Tendsto N Filter.atBot (𝓝 0) := by
  have hdiv : Filter.Tendsto (fun x : ℝ => x / Real.sqrt 2) Filter.atBot Filter.atBot :=
    Filter.Tendsto.atBot_div_const (Real.sqrt_pos.mpr two_pos) Filter.tendsto_id
  have h1 := tendsto_erf_atBot.comp hdiv
  have h2 := (h1.const_add (1:ℝ)).const_mul (0.5:ℝ)
  have h0 : (0.5:ℝ) * (1 + -1) = 0 := by norm_num
  rw [h0] at h2
  exact h2

/-- The Gaussian-density identity `e^m φ(m/s + s/2) = φ(m/s - s/2)`. -/
theorem exp_mul_gaussPDF (s m : ℝ) (hs : s ≠ 0) :
    Real.exp m * gaussPDF (m / s + s / 2) = gaussPDF (m / s - s / 2) := by
  unfold gaussPDF
  rw [← mul_div_assoc, ← Real.exp_add]
  congr 2
  field_simp
  ring

/-- Derivative of the Black kernel in the log-moneyness: `e^m N (m/s + s/2)`.
The density terms cancel by `exp_mul_gaussPDF`. -/
theorem hasDerivAt_blackCore (s : ℝ) (hs : 0 < s) (m : ℝ) :
    HasDerivAt (blackCore s) (Real.exp m * N (m / s + s / 2)) m := by
  have hsne : s ≠ 0 := ne_of_gt hs
  have hd1 : HasDerivAt (fun y : ℝ => y / s + s / 2) (1 / s) m := by
    simpa using ((hasDerivAt_id m).div_const s).add_const (s / 2)
  have hd2 : HasDerivAt (fun y : ℝ => y / s - s / 2) (1 / s) m := by
    simpa using ((hasDerivAt_id m).div_const s).sub_const (s / 2)
  have hN1 := (hasDerivAt_N (m / s + s / 2)).comp m hd1
  have hN2 := (hasDerivAt_N (m / s - s / 2)).comp m hd2
  have hexp : HasDerivAt Real.exp (Real.exp m) m := Real.hasDerivAt_exp m
  have hprod := hexp.mul hN1
  have htot := hprod.sub hN2
  simp only [Function.comp_apply] at htot
  have heq : Real.exp m * N (m / s + s / 2) +
      Real.exp m * (gaussPDF (m / s + s / 2) * (1 / s)) -
      gaussPDF (m / s - s / 2) * (1 / s) = Real.exp m * N (m / s + s / 2) := by
    rw [← mul_assoc, exp_mul_gaussPDF s m hsne]
    ring
  rw [heq] at htot
  exact htot

/-- The Black kernel is nonnegative for positive total volatility: it is
monotone in the log-moneyness (its derivative `e^m N (d1)` is nonnegative)
and tends to `0` at `-∞`. -/
theorem blackCore_nonneg (s : ℝ) (hs : 0 < s) (m : ℝ) : 0 ≤ blackCore s m := by
  have hdiff : Differentiable ℝ (blackCore s) := fun y =>
    (hasDerivAt_blackCore s hs y).differentiableAt
  have hmono : Monotone (blackCore s) := by
    refine monotone_of_deriv_nonneg hdiff ?_
    intro y
    rw [(hasDerivAt_blackCore s hs y).deriv]
    exact mul_nonneg (Real.exp_pos y).le (N_nonneg _)
  have hterm1 : Filter.Tendsto (fun y : ℝ => Real.exp y * N (y / s + s / 2))
      Filter.atBot (𝓝 0) := by
    refine squeeze_zero (fun y => mul_nonneg (Real.exp_pos y).le (N_nonneg _))
      (fun y => ?_) Real.tendsto_exp_atBot
    calc Real.exp y * N (y / s + s / 2) ≤ Real.exp y * 1 :=
          mul_le_mul_of_nonneg_left (N_le_one _) (Real.exp_pos y).le
      _ = Real.exp y := mul_one _
  have hterm2 : Filter.Tendsto (fun y : ℝ => N (y / s - s / 2)) Filter.atBot (𝓝 0) := by
    have hdiv : Filter.Tendsto (fun y : ℝ => y / s) Filter.atBot Filter.atBot :=
      Filter.Tendsto.atBot_div_const hs Filter.tendsto_id
    have haff : Filter.Tendsto (fun y : ℝ => y / s - s / 2) Filter.atBot Filter.atBot := by
      have h := Filter.tendsto_atBot_add_const_right Filter.atBot (-(s / 2)) hdiv
      simpa [sub_eq_add_neg] using h
    exact tendsto_N_atBot.comp haff
  have hlim : Filter.Tendsto (blackCore s) Filter.atBot (𝓝 0) := by
    have h := hterm1.sub hterm2
    simpa using h
  refine le_of_tendsto hlim ?_
  exact Filter.eventually_atBot.mpr ⟨m, fun x hx => hmono hx⟩

/-- The price expression of line 15 factors through the Black kernel at
log-moneyness `ln (S/K) + (r - q) T` and total volatility `σ √T`. -/
theorem bs_price_eq_blackCore (S K T r sigma q : ℝ) (hS : 0 < S) (hK : 0 < K)
    (hT : 0 < T) (hsig : 0 < sigma) :
    bs_price S K T r sigma q =
      K * Real.exp (-r * T) *
        blackCore (sigma * Real.sqrt T) (Real.log (S / K) + (r - q) * T) := by
  have hw : (0:ℝ) < Real.sqrt T := Real.sqrt_pos.mpr hT
  have hwne : Real.sqrt T ≠ 0 := ne_of_gt hw
  have hsne : sigma * Real.sqrt T ≠ 0 := mul_ne_zero (ne_of_gt hsig) hwne
  have hw2 : Real.sqrt T ^ 2 = T := Real.sq_sqrt hT.le
  have halg : ∀ L w : ℝ, w ≠ 0 →
      (L + (r - q + 0.5 * sigma ^ 2) * w ^ 2) / (sigma * w) =
        (L + (r - q) * w ^ 2) / (sigma * w) + sigma * w / 2 := by
    intro L w hw0
    have hs0 : sigma ≠ 0 := ne_of_gt hsig
    field_simp
    ring
  have harg1 : (Real.log (S / K) + (r - q + 0.5 * sigma ^ 2) * T) / (sigma * Real.sqrt T) =
      (Real.log (S / K) + (r - q) * T) / (sigma * Real.sqrt T) +
        sigma * Real.sqrt T / 2 := by
    have h := halg (Real.log (S / K)) (Real.sqrt T) hwne
    rwa [hw2] at h
  have harg2 : (Real.log (S / K) + (r - q) * T) / (sigma * Real.sqrt T) +
      sigma * Real.sqrt T / 2 - sigma * Real.sqrt T =
      (Real.log (S / K) + (r - q) * T) / (sigma * Real.sqrt T) -
        sigma * Real.sqrt T / 2 := by
    ring
  have hcoef : K * Real.exp (-r * T) *
      Real.exp (Real.log (S / K) + (r - q) * T) = S * Real.exp (-q * T) := by
    rw [mul_assoc, ← Real.exp_add]
    have he : -r * T + (Real.log (S / K) + (r - q) * T) = Real.log (S / K) + -q * T := by
      ring
    rw [he, Real.exp_add, Real.exp_log (div_pos hS hK)]
    field_simp
  simp only [bs_price, blackCore]
  rw [harg1, harg2, mul_sub, ← mul_assoc, hcoef]

/-! ## C9: the pricer's value is nonnegative -/

/-- C9: for every `ContractParameters` with `S0 > 0`, `K > 0`, `T > 0`,
`sigma > 0` (and any real `r`, `q`), the scalar returned by
`black_scholes_call` is nonnegative. -/
theorem bs_call_nonneg (S K T r sigma q : ℝ) (hS : 0 < S) (hK : 0 < K)
    (hT : 0 < T) (hsig : 0 < sigma) :
    ∀ v, black_scholes_call S K T r sigma q = .ok v → 0 ≤ v := by
  intro v hv
  rw [black_scholes_call_run S K T r sigma q hS hK hT hsig] at hv
  have hv' : bs_price S K T r sigma q = v := by
    simpa only [Except.ok.injEq] using hv
  rw [← hv', bs_price_eq_blackCore S K T r sigma q hS hK hT hsig]
  exact mul_nonneg (mul_nonneg hK.le (Real.exp_pos _).le)
    (blackCore_nonneg _ (mul_pos hsig (Real.sqrt_pos.mpr hT)) _)

/-- Witness for C9 at `S = 2`, `K = T = sigma = 1`, `r = q = 0`. -/
theorem bs_call_nonneg_witness :
    (0:ℝ) < 2 ∧ black_scholes_call 2 1 1 0 1 0 = .ok (bs_price 2 1 1 0 1 0) ∧
      0 ≤ bs_price 2 1 1 0 1 0 :=
  ⟨two_pos,
    black_scholes_call_run 2 1 1 0 1 0 two_pos one_pos one_pos one_pos,
    bs_call_nonneg 2 1 1 0 1 0 two_pos one_pos one_pos one_pos
      (bs_price 2 1 1 0 1 0)
      (black_scholes_call_run 2 1 1 0 1 0 two_pos one_pos one_pos one_pos)⟩

end OptionsPricing
